import Mathlib

/-!
Verification of the audio windowing / transcription pipeline of the
life-context-api repository.

The embedding works in the units of the source code itself:

* `src/collectors/audio/chunking.py` works in integer milliseconds
  (`pydub` audio lengths are integers), so the segmenter is embedded over
  `ℤ` millisecond values.  An audio payload is represented by its
  `[start_ms, end_ms)` slice of the recording, which together with the
  recording determines `audio[start_ms:end_ms]`.
* `src/processors/whisper/transcribe.py` works with second-valued segment
  timestamps coming from the inference engine (Python floats); these are
  embedded as rationals, since every float the code compares is a rational
  and the code only performs order comparisons and additions on them.
* The `while` loop of `make_chunks_with_overlap` need not terminate for
  invalid parameters, so it is embedded with explicit fuel: `none` means
  the loop was still running after the given number of iterations.
-/

/-- One iteration of the `while start_ms < total_ms` loop of
`make_chunks_with_overlap` (src/collectors/audio/chunking.py, lines 34-44).
Each produced pair `(start_ms, end_ms)` stands for the chunk
`audio[start_ms:end_ms]` together with its recorded start time
(`start_sec = start_ms / 1000`, kept here in milliseconds).
`none` means the loop did not finish within `fuel` iterations. -/
def chunksLoop (chunk_ms overlap_ms total_ms : ℤ) : ℕ → ℤ → Option (List (ℤ × ℤ))
  | 0, _ => none
  | fuel + 1, start_ms =>
    if start_ms < total_ms then
      let end_ms := min (start_ms + chunk_ms) total_ms
      if total_ms ≤ end_ms then
        some [(start_ms, end_ms)]
      else
        (chunksLoop chunk_ms overlap_ms total_ms fuel (end_ms - overlap_ms)).map
          (fun rest => (start_ms, end_ms) :: rest)
    else
      some []

/-- `make_chunks_with_overlap` with window and overlap lengths already
converted to milliseconds.  The fuel `total_ms.toNat + 1` is enough for any
valid parameters (proved below); for invalid parameters the source loop can
run forever, which surfaces here as `none`. -/
def make_chunks_ms (chunk_ms overlap_ms total_ms : ℤ) : Option (List (ℤ × ℤ)) :=
  chunksLoop chunk_ms overlap_ms total_ms (total_ms.toNat + 1) 0

/-- `make_chunks_with_overlap(audio_path, chunk_minutes, overlap_seconds)`
(src/collectors/audio/chunking.py, lines 9-46), with the audio file
abstracted to its length `total_ms = len(audio)`.
`chunk_ms = chunk_minutes * 60 * 1000`, `overlap_ms = overlap_seconds * 1000`
exactly as in lines 28-29. -/
def make_chunks_with_overlap (total_ms chunk_minutes overlap_seconds : ℤ) :
    Option (List (ℤ × ℤ)) :=
  make_chunks_ms (chunk_minutes * 60 * 1000) (overlap_seconds * 1000) total_ms

/-- Relational description of the chunk lists the loop can return, indexed by
the running `start_ms` value. -/
def chunkListSpec (chunk_ms overlap_ms total_ms : ℤ) : ℤ → List (ℤ × ℤ) → Prop
  | start_ms, [] => total_ms ≤ start_ms
  | start_ms, c :: rest =>
      c.1 = start_ms ∧ start_ms < total_ms ∧
      c.2 = min (start_ms + chunk_ms) total_ms ∧
      ((total_ms ≤ c.2 ∧ rest = []) ∨
       (c.2 < total_ms ∧ chunkListSpec chunk_ms overlap_ms total_ms (c.2 - overlap_ms) rest))

/-- Conjunction of the segmentation properties claimed for valid parameters:
first window starts at offset `0`, every window spans
`[start, min(start + window_length, D))`, each next window starts at
`end - overlap_length`, the last window ends exactly at `D`, the windows
cover `[0, D)` with no gaps, and consecutive windows overlap by exactly
`overlap_length` (their ranges strictly advance). -/
def SegmenterSpec (chunk_ms overlap_ms total_ms : ℤ) (l : List (ℤ × ℤ)) : Prop :=
  l ≠ [] ∧
  (∀ h0 : 0 < l.length, (l.get ⟨0, h0⟩).1 = 0) ∧
  (∀ p ∈ l, p.2 = min (p.1 + chunk_ms) total_ms) ∧
  (∀ (i : ℕ) (hi : i + 1 < l.length),
    (l.get ⟨i + 1, hi⟩).1 = (l.get ⟨i, Nat.lt_of_succ_lt hi⟩).2 - overlap_ms) ∧
  (∀ hne : l ≠ [], (l.getLast hne).2 = total_ms) ∧
  (∀ x : ℤ, 0 ≤ x → x < total_ms → ∃ p ∈ l, p.1 ≤ x ∧ x < p.2) ∧
  (∀ (i : ℕ) (hi : i + 1 < l.length),
    (l.get ⟨i, Nat.lt_of_succ_lt hi⟩).2 - (l.get ⟨i + 1, hi⟩).1 = overlap_ms ∧
    (l.get ⟨i, Nat.lt_of_succ_lt hi⟩).1 < (l.get ⟨i + 1, hi⟩).1 ∧
    (l.get ⟨i, Nat.lt_of_succ_lt hi⟩).2 < (l.get ⟨i + 1, hi⟩).2)

/-- One Whisper segment as produced by the inference engine for one chunk:
`seg.start`/`seg.end`/`seg.text` in src/processors/whisper/transcribe.py,
lines 80-84.  The Python `end` field is called `stop` here (`end` is a Lean
keyword); timestamps are seconds relative to the chunk start. -/
structure Seg where
  start : ℚ
  stop : ℚ
  text : String
deriving DecidableEq

/-- What the black-box inference engine (`model.transcribe` plus `info`,
src/processors/whisper/transcribe.py lines 63-70 and 91-92) yields for one
chunk: the segment iterator and the detected language info. -/
structure EngineOutput where
  segments : List Seg
  language : String
  language_probability : ℚ
deriving DecidableEq

/-- The inference engine as a capability: given the chunk audio (identified
by its path) and the optional `initial_prompt`, it either produces an output
or fails (a raised exception in the source). -/
abbrev Engine : Type := String → Option String → Option EngineOutput

/-- Entry of `all_segments` in `transcribe_audio_chunks`
(src/processors/whisper/transcribe.py lines 153-160). -/
structure GlobalSeg where
  chunk_index : ℕ
  start : ℚ
  stop : ℚ
  text : String
  language : String
  language_probability : ℚ
deriving DecidableEq

/-- Entry of `language_per_chunk` (src/processors/whisper/transcribe.py
lines 134-138). -/
structure LangInfo where
  chunk_index : ℕ
  language : String
  language_probability : ℚ
deriving DecidableEq

/-- Python `s[-n:]` on a string (used as `chunk_text_merge[-prompt_tail_chars:]`
and `chunk_text[-300:]`): the last `n` characters, the whole string when
`n = 0` (since `s[-0:] = s[0:] = s`) or when `n ≥ len(s)`. -/
def pyTail (s : String) (n : ℕ) : String :=
  if n = 0 then s else String.mk (s.data.drop (s.data.length - n))

/-- Python `prev_tail or None`: an empty string is passed as `None`. -/
def optPrompt (s : String) : Option String := if s = "" then none else some s

/-- Python `"".join(parts)`. -/
def strJoin : List String → String
  | [] => ""
  | s :: rest => s ++ strJoin rest

/-- The merge filter of `transcribe_audio_chunks`
(src/processors/whisper/transcribe.py lines 146-148): a segment is kept
unless `idx > 0 and local_start < overlap_seconds`. -/
def keepB (overlap_seconds : ℚ) (idx : ℕ) (s : Seg) : Bool :=
  !(decide (0 < idx) && decide (s.start < overlap_seconds))

/-- Modelled from the spec (§4.4): the keep condition stated the way the
specification words it — window 0 keeps everything, a later window keeps a
segment iff `local_start ≥ overlap_length`.  Used to compare the code's
filter `keepB` against the specified one. -/
def keepSpecB (overlap_seconds : ℚ) (idx : ℕ) (s : Seg) : Bool :=
  decide (idx = 0) || decide (overlap_seconds ≤ s.start)

/-- `transcribe_chunk_file` (src/processors/whisper/transcribe.py lines
45-93): runs the engine on one chunk, collects the segments, and returns
`(chunk_text, segments, language, language_probability)` where `chunk_text`
is the concatenation of the segment texts.  `initial_prompt or None`
(line 69) re-normalises an empty prompt to `None`.  `none` models a raised
exception. -/
def transcribe_chunk_file (engine : Engine) (chunk_path : String)
    (initial_prompt : Option String) : Option (String × List Seg × String × ℚ) :=
  (engine chunk_path (initial_prompt.bind optPrompt)).map fun out =>
    (strJoin (out.segments.map Seg.text), out.segments, out.language,
     out.language_probability)

/-- The `prev_tail` update at the end of each `transcribe_audio_chunks`
iteration (src/processors/whisper/transcribe.py lines 165-169): prefer the
tail of the merged (overlap-trimmed) text, fall back to the tail of the raw
chunk text, otherwise leave `prev_tail` unchanged. -/
def nextTailStr (overlap_seconds : ℚ) (prompt_tail_chars : ℕ) (idx : ℕ)
    (chunk_text : String) (segments : List Seg) (prev_tail : String) : String :=
  let chunk_text_merge :=
    strJoin ((segments.filter (keepB overlap_seconds idx)).map Seg.text)
  if chunk_text_merge ≠ "" then pyTail chunk_text_merge prompt_tail_chars
  else if chunk_text ≠ "" then pyTail chunk_text prompt_tail_chars
  else prev_tail

/-- The `for idx, chunk_path in enumerate(chunk_paths)` loop of
`transcribe_audio_chunks` (src/processors/whisper/transcribe.py lines
124-169), carrying `idx` and `prev_tail`, and producing
`(full_text, all_segments, language_per_chunk)` of the remaining chunks.
`none` models an engine exception aborting the run. -/
def tacLoop (engine : Engine) (overlap_seconds : ℚ) (prompt_tail_chars : ℕ) :
    ℕ → String → List String → Option (String × List GlobalSeg × List LangInfo)
  | _, _, [] => some ("", [], [])
  | idx, prev_tail, chunk_path :: rest =>
    match transcribe_chunk_file engine chunk_path (optPrompt prev_tail) with
    | none => none
    | some (chunk_text, segments, language, lang_prob) =>
      let kept := segments.filter (keepB overlap_seconds idx)
      let chunk_text_merge := strJoin (kept.map Seg.text)
      (tacLoop engine overlap_seconds prompt_tail_chars (idx + 1)
          (nextTailStr overlap_seconds prompt_tail_chars idx chunk_text segments prev_tail)
          rest).map
        (fun out =>
          (chunk_text_merge ++ out.1,
           kept.map (fun s =>
             GlobalSeg.mk idx s.start s.stop s.text language lang_prob) ++ out.2.1,
           LangInfo.mk idx language lang_prob :: out.2.2))

/-- `transcribe_audio_chunks(chunk_paths, overlap_seconds, prompt_tail_chars)`
(src/processors/whisper/transcribe.py lines 96-172), parametrised by the
inference engine. -/
def transcribe_audio_chunks (engine : Engine) (chunk_paths : List String)
    (overlap_seconds : ℚ) (prompt_tail_chars : ℕ) :
    Option (String × List GlobalSeg × List LangInfo) :=
  tacLoop engine overlap_seconds prompt_tail_chars 0 "" chunk_paths

/-- Ghost record of one iteration of the `transcribe_audio_chunks` loop: the
chunk index, the `prev_tail` in force when the chunk was transcribed, and the
values `transcribe_chunk_file` returned for it. -/
structure RawChunk where
  chunk_index : ℕ
  prompt : String
  chunk_text : String
  segments : List Seg
  language : String
  language_probability : ℚ
deriving DecidableEq

/-- The same loop as `tacLoop`, but recording the per-chunk raw results
(with the prompt each chunk was transcribed under) instead of the merged
outputs. -/
def rawChunksLoop (engine : Engine) (overlap_seconds : ℚ) (prompt_tail_chars : ℕ) :
    ℕ → String → List String → Option (List RawChunk)
  | _, _, [] => some []
  | idx, prev_tail, chunk_path :: rest =>
    match transcribe_chunk_file engine chunk_path (optPrompt prev_tail) with
    | none => none
    | some (chunk_text, segments, language, lang_prob) =>
      (rawChunksLoop engine overlap_seconds prompt_tail_chars (idx + 1)
          (nextTailStr overlap_seconds prompt_tail_chars idx chunk_text segments prev_tail)
          rest).map
        (fun R => RawChunk.mk idx prev_tail chunk_text segments language lang_prob :: R)

/-- Segments of one recorded chunk that survive the overlap trim. -/
def keptSegs (overlap_seconds : ℚ) (r : RawChunk) : List Seg :=
  r.segments.filter (keepB overlap_seconds r.chunk_index)

/-- `chunk_text_merge` of one recorded chunk: concatenation of its kept
segment texts. -/
def mergedText (overlap_seconds : ℚ) (r : RawChunk) : String :=
  strJoin ((keptSegs overlap_seconds r).map Seg.text)

/-- How a kept local segment is written into `all_segments`
(src/processors/whisper/transcribe.py lines 153-160): the same local
`start`/`end` timestamps, plus chunk index and language info. -/
def toGlobal (r : RawChunk) (s : Seg) : GlobalSeg :=
  GlobalSeg.mk r.chunk_index s.start s.stop s.text r.language r.language_probability

/-- The `all_segments` contribution of one recorded chunk. -/
def globalsOf (overlap_seconds : ℚ) (r : RawChunk) : List GlobalSeg :=
  (keptSegs overlap_seconds r).map (toGlobal r)

/-- `full_text` recomputed from the recorded chunks. -/
def assembleText (overlap_seconds : ℚ) (R : List RawChunk) : String :=
  strJoin (R.map (mergedText overlap_seconds))

/-- `all_segments` recomputed from the recorded chunks. -/
def assembleSegs (overlap_seconds : ℚ) (R : List RawChunk) : List GlobalSeg :=
  (R.map (globalsOf overlap_seconds)).flatten

/-- `language_per_chunk` recomputed from the recorded chunks. -/
def assembleLangs (R : List RawChunk) : List LangInfo :=
  R.map fun r => LangInfo.mk r.chunk_index r.language r.language_probability

/-- The `prev_tail` update applied to a recorded chunk. -/
def nextTailR (overlap_seconds : ℚ) (prompt_tail_chars : ℕ) (r : RawChunk) : String :=
  nextTailStr overlap_seconds prompt_tail_chars r.chunk_index r.chunk_text
    r.segments r.prompt

/-- The text tail a chunk offers to the next iteration, if any: the merged
tail when the merged text is non-empty, else the raw tail when the raw text
is non-empty, else nothing. -/
def tailCandidate (overlap_seconds : ℚ) (prompt_tail_chars : ℕ) (r : RawChunk) :
    Option String :=
  if mergedText overlap_seconds r ≠ "" then
    some (pyTail (mergedText overlap_seconds r) prompt_tail_chars)
  else if r.chunk_text ≠ "" then some (pyTail r.chunk_text prompt_tail_chars)
  else none

/-- Invariant linking consecutive recorded chunks: indices are consecutive,
each chunk's recorded prompt is the `prev_tail` in force, the raw chunk text
is the concatenation of its segment texts, and the next chunk's prompt comes
from the `prev_tail` update. -/
def promptChain (overlap_seconds : ℚ) (prompt_tail_chars : ℕ) :
    ℕ → String → List RawChunk → Prop
  | _, _, [] => True
  | idx, prev, r :: rest =>
      r.chunk_index = idx ∧ r.prompt = prev ∧
      r.chunk_text = strJoin (r.segments.map Seg.text) ∧
      promptChain overlap_seconds prompt_tail_chars (idx + 1)
        (nextTailR overlap_seconds prompt_tail_chars r) rest

/-- Row of the `audio_chunks` table read by `process_upload`
(src/processors/whisper/main.py lines 173-180). -/
structure ChunkRow where
  chunk_id : ℕ
  chunk_index : ℕ
  blob_path : String
  start_time_sec : ℚ
deriving DecidableEq

/-- Row of the `transcripts` table written by `process_upload`
(src/processors/whisper/main.py lines 232-245). -/
structure TranscriptRow where
  chunk_id : ℕ
  chunk_index : ℕ
  text : String
  language : String
  language_probability : ℚ
  segments : List Seg
deriving DecidableEq

/-- The slice of database state `process_upload` and `get_transcript`
read and write for one upload: its `audio_uploads.status` and its
`transcripts` rows (in insertion order). -/
structure DB where
  status : String
  transcripts : List TranscriptRow
deriving DecidableEq

/-- The response body of a successful `POST /whisper/process/{upload_id}`
(src/processors/whisper/main.py lines 260-269), restricted to the fields
computed from the transcription results. -/
structure Response where
  status : String
  chunks_processed : ℕ
  full_transcript : String
  languages : List String
deriving DecidableEq

/-- The transcript-bearing fields of `GET /whisper/transcript/{upload_id}`
(src/processors/whisper/main.py lines 329-348). -/
structure TranscriptOut where
  full_transcript : String
  segments : List Seg
  languages : List String
  total_chunks : ℕ
deriving DecidableEq

/-- The per-chunk loop of `process_upload` (src/processors/whisper/main.py
lines 188-227): downloads each chunk, transcribes it with
`initial_prompt=prev_tail or None`, updates `prev_tail` to the last 300
characters of the raw chunk text when that text is non-empty, and collects
the result rows.  `none` models a transcription exception aborting the run.
Note: no overlap trimming and no merged-text fallback happens here. -/
def processLoop (engine : Engine) : String → List ChunkRow → Option (List TranscriptRow)
  | _, [] => some []
  | prev_tail, c :: rest =>
    match transcribe_chunk_file engine c.blob_path (optPrompt prev_tail) with
    | none => none
    | some (chunk_text, segments, language, lang_prob) =>
      (processLoop engine
          (if chunk_text ≠ "" then pyTail chunk_text 300 else prev_tail) rest).map
        (fun rs =>
          TranscriptRow.mk c.chunk_id c.chunk_index chunk_text language lang_prob
            segments :: rs)

/-- Insertion step for the model of SQL `ORDER BY chunk_index`. -/
def insertRow (r : TranscriptRow) : List TranscriptRow → List TranscriptRow
  | [] => [r]
  | x :: xs =>
      if r.chunk_index < x.chunk_index then r :: x :: xs else x :: insertRow r xs

/-- Model of `ORDER BY chunk_index` in `get_transcript`: a sort of the stored
rows by `chunk_index` (SQL fixes only the order of distinct keys; this model
picks one deterministic permutation). -/
def sortRows : List TranscriptRow → List TranscriptRow
  | [] => []
  | x :: xs => insertRow x (sortRows xs)

/-- `POST /whisper/process/{upload_id}` (src/processors/whisper/main.py lines
139-288), as a transition on the upload's database slice.  Returns the new
database state, the list of `audio_uploads.status` values written during the
call (in order), and the response body (`none` on failure).  The source
raises 404 inside the `try` block when no chunks exist, which its generic
`except` turns into status `failed`; transcript rows are only inserted, never
replaced, and `completed` is written in the same transaction as the rows. -/
def process_upload (engine : Engine) (chunks : List ChunkRow) (db : DB) :
    DB × List String × Option Response :=
  if chunks = [] then (DB.mk "failed" db.transcripts, ["failed"], none)
  else
    match processLoop engine "" chunks with
    | none => (DB.mk "failed" db.transcripts, ["failed"], none)
    | some rows =>
        (DB.mk "completed" (db.transcripts ++ rows),
         ["completed"],
         some (Response.mk "completed" rows.length
           (strJoin (rows.map TranscriptRow.text))
           ((rows.map TranscriptRow.language).dedup)))

/-- `GET /whisper/transcript/{upload_id}` (src/processors/whisper/main.py
lines 291-351): when the status is `completed`, reads all transcript rows
ordered by `chunk_index`, joins their texts, flattens their segments, and
collects the language set; otherwise reports that the transcript is not
ready (`none`). -/
def get_transcript (db : DB) : Option TranscriptOut :=
  if db.status = "completed" then
    some (TranscriptOut.mk
      (strJoin ((sortRows db.transcripts).map TranscriptRow.text))
      (((sortRows db.transcripts).map TranscriptRow.segments).flatten)
      (((sortRows db.transcripts).map TranscriptRow.language).dedup)
      (sortRows db.transcripts).length)
  else none

/-- `POST /audio/upload/{member_id}` (src/collectors/audio/main.py lines
141-269), restricted to what the claims need: chunk the recording with the
fixed parameters `chunk_minutes=5, overlap_seconds=30` (line 186-190) and
store the upload with status `'chunked'` (line 239). -/
def upload_audio (total_ms : ℤ) : Option (List (ℤ × ℤ) × String) :=
  (make_chunks_with_overlap total_ms 5 30).map (fun cs => (cs, "chunked"))

/-- Test engine: chunk `"c0"` yields one segment, chunk `"c1"` yields a
segment inside the 30 s overlap (`local_start = 10`) and one outside it
(`local_start = 31`). -/
def engSeg : Engine := fun chunk_path _ =>
  if chunk_path = "c0" then some (EngineOutput.mk [Seg.mk 0 5 "A"] "en" 1)
  else some (EngineOutput.mk [Seg.mk 10 20 "B", Seg.mk 31 40 "C"] "en" 1)

/-- Test engine: every chunk yields one segment of text `"A"`. -/
def engConst : Engine := fun _ _ => some (EngineOutput.mk [Seg.mk 0 1 "A"] "en" 1)

/-- Test engine: chunk `"s1"` is silent (no segments); others as `engSeg`. -/
def engSilent : Engine := fun chunk_path h =>
  if chunk_path = "s1" then some (EngineOutput.mk [] "en" 1)
  else engSeg chunk_path h

/-- Database slice of a freshly uploaded recording. -/
def dbChunked : DB := DB.mk "chunked" []

/-- The `audio_chunks` rows of a two-window upload whose second window starts
at 270 s (the offsets `make_chunks_with_overlap` assigns for a 570 s
recording at the default parameters). -/
def chunkRowsSeg : List ChunkRow := [ChunkRow.mk 1 0 "c0" 0, ChunkRow.mk 2 1 "c1" 270]

/-- A single-chunk upload. -/
def chunkRowsOne : List ChunkRow := [ChunkRow.mk 1 0 "b0" 0]

/-- The recorded chunks of running `transcribe_audio_chunks` with `engSeg`
on two chunks (overlap 30 s, tail 300 chars). -/
def rawSeg : List RawChunk :=
  [RawChunk.mk 0 "" "A" [Seg.mk 0 5 "A"] "en" 1,
   RawChunk.mk 1 "A" "BC" [Seg.mk 10 20 "B", Seg.mk 31 40 "C"] "en" 1]

/-- The recorded chunks of running `transcribe_audio_chunks` with
`engSilent` on three chunks, the middle one silent. -/
def rawSilent : List RawChunk :=
  [RawChunk.mk 0 "" "A" [Seg.mk 0 5 "A"] "en" 1,
   RawChunk.mk 1 "A" "" [] "en" 1,
   RawChunk.mk 2 "A" "BC" [Seg.mk 10 20 "B", Seg.mk 31 40 "C"] "en" 1]

/-- The transcript rows `process_upload` computes for `chunkRowsSeg` under
`engSeg`. -/
def rowsSeg : List TranscriptRow :=
  [TranscriptRow.mk 1 0 "A" "en" 1 [Seg.mk 0 5 "A"],
   TranscriptRow.mk 2 1 "BC" "en" 1 [Seg.mk 10 20 "B", Seg.mk 31 40 "C"]]

/-- The transcript rows `process_upload` computes for `chunkRowsOne` under
`engConst`. -/
def rowsOne : List TranscriptRow :=
  [TranscriptRow.mk 1 0 "A" "en" 1 [Seg.mk 0 1 "A"]]

/-- The same loop as `processLoop`, but recording the per-chunk raw results
together with the `prev_tail` (the context hint) each chunk was transcribed
under, instead of the stored rows. -/
def procRawLoop (engine : Engine) : String → List ChunkRow → Option (List RawChunk)
  | _, [] => some []
  | prev_tail, c :: rest =>
    match transcribe_chunk_file engine c.blob_path (optPrompt prev_tail) with
    | none => none
    | some (chunk_text, segments, language, lang_prob) =>
      (procRawLoop engine
          (if chunk_text ≠ "" then pyTail chunk_text 300 else prev_tail) rest).map
        (fun P => RawChunk.mk c.chunk_index prev_tail chunk_text segments language
          lang_prob :: P)

/-- Invariant linking consecutive recorded chunks of the `process_upload`
loop: each recorded prompt is the `prev_tail` in force, the raw text is the
concatenation of the segment texts, and the next prompt comes from the
raw-tail-only update of src/processors/whisper/main.py lines 213-215. -/
def procPromptChain : String → List RawChunk → Prop
  | _, [] => True
  | prev, r :: rest =>
      r.prompt = prev ∧
      r.chunk_text = strJoin (r.segments.map Seg.text) ∧
      procPromptChain (if r.chunk_text ≠ "" then pyTail r.chunk_text 300 else r.prompt)
        rest

/-- A three-window upload whose windows start at 0 s, 270 s and 540 s. -/
def chunkRowsSeg3 : List ChunkRow :=
  [ChunkRow.mk 1 0 "c0" 0, ChunkRow.mk 2 1 "c1" 270, ChunkRow.mk 3 2 "c2" 540]

/-- The recorded chunks of the `process_upload` loop under `engSeg` on
`chunkRowsSeg3`: window 1 has raw text `"BC"`, and the hint recorded for
window 2 is `"BC"`, the raw tail. -/
def procSeg3 : List RawChunk :=
  [RawChunk.mk 0 "" "A" [Seg.mk 0 5 "A"] "en" 1,
   RawChunk.mk 1 "A" "BC" [Seg.mk 10 20 "B", Seg.mk 31 40 "C"] "en" 1,
   RawChunk.mk 2 "BC" "BC" [Seg.mk 10 20 "B", Seg.mk 31 40 "C"] "en" 1]

/-! ### Theorems -/

theorem chunksLoop_sound (chunk_ms overlap_ms total_ms : ℤ) :
    ∀ (fuel : ℕ) (start_ms : ℤ) (l : List (ℤ × ℤ)),
      chunksLoop chunk_ms overlap_ms total_ms fuel start_ms = some l →
      chunkListSpec chunk_ms overlap_ms total_ms start_ms l := by
  intro fuel
  induction fuel with
  | zero => intro start_ms l h; simp [chunksLoop] at h
  | succ fuel ih =>
      intro start_ms l h
      rw [chunksLoop] at h
      by_cases hs : start_ms < total_ms
      · rw [if_pos hs] at h
        by_cases he : total_ms ≤ min (start_ms + chunk_ms) total_ms
        · rw [if_pos he] at h
          cases h
          exact ⟨rfl, hs, rfl, Or.inl ⟨he, rfl⟩⟩
        · rw [if_neg he] at h
          cases hr : chunksLoop chunk_ms overlap_ms total_ms fuel
              (min (start_ms + chunk_ms) total_ms - overlap_ms) with
          | none => rw [hr] at h; simp at h
          | some rest =>
              rw [hr] at h
              simp only [Option.map_some'] at h
              cases h
              exact ⟨rfl, hs, rfl, Or.inr ⟨lt_of_not_le he, ih _ _ hr⟩⟩
      · rw [if_neg hs] at h
        cases h
        exact le_of_not_lt hs

theorem chunksLoop_total (chunk_ms overlap_ms total_ms : ℤ)
    (ho : 0 ≤ overlap_ms) (hco : overlap_ms < chunk_ms) :
    ∀ (fuel : ℕ) (start_ms : ℤ), (total_ms - start_ms).toNat < fuel →
      ∃ l, chunksLoop chunk_ms overlap_ms total_ms fuel start_ms = some l := by
  intro fuel
  induction fuel with
  | zero => intro start_ms h; omega
  | succ fuel ih =>
      intro start_ms hfuel
      rw [chunksLoop]
      by_cases hs : start_ms < total_ms
      · rw [if_pos hs]
        by_cases he : total_ms ≤ min (start_ms + chunk_ms) total_ms
        · rw [if_pos he]; exact ⟨_, rfl⟩
        · rw [if_neg he]
          have hmin : min (start_ms + chunk_ms) total_ms = start_ms + chunk_ms := by
            rcases min_cases (start_ms + chunk_ms) total_ms with h | h <;> omega
          obtain ⟨l, hl⟩ := ih (min (start_ms + chunk_ms) total_ms - overlap_ms) (by
            rw [hmin]
            omega)
          exact ⟨_, by rw [hl]; rfl⟩
      · rw [if_neg hs]; exact ⟨_, rfl⟩

theorem chunkListSpec_ne_nil {chunk_ms overlap_ms total_ms start_ms : ℤ}
    {l : List (ℤ × ℤ)} (h : chunkListSpec chunk_ms overlap_ms total_ms start_ms l)
    (hs : start_ms < total_ms) : l ≠ [] := by
  cases l with
  | nil => simp only [chunkListSpec] at h; omega
  | cons p rest => simp

theorem chunkListSpec_mem_span (chunk_ms overlap_ms total_ms : ℤ) :
    ∀ (l : List (ℤ × ℤ)) (start_ms : ℤ),
      chunkListSpec chunk_ms overlap_ms total_ms start_ms l →
      ∀ p ∈ l, p.2 = min (p.1 + chunk_ms) total_ms ∧ p.1 < total_ms := by
  intro l
  induction l with
  | nil => intro start_ms _ p hp; simp at hp
  | cons c rest ih =>
      intro start_ms h p hp
      obtain ⟨hc1, hs, hc2, hrest⟩ := h
      rcases List.mem_cons.mp hp with rfl | hp
      · subst hc1; exact ⟨hc2, hs⟩
      · rcases hrest with ⟨_, hnil⟩ | ⟨_, hspec⟩
        · subst hnil; simp at hp
        · exact ih _ hspec p hp

theorem chunkListSpec_chain (chunk_ms overlap_ms total_ms : ℤ) :
    ∀ (l : List (ℤ × ℤ)) (start_ms : ℤ),
      chunkListSpec chunk_ms overlap_ms total_ms start_ms l →
      ∀ (i : ℕ) (hi : i + 1 < l.length),
        (l.get ⟨i + 1, hi⟩).1 = (l.get ⟨i, Nat.lt_of_succ_lt hi⟩).2 - overlap_ms ∧
        (l.get ⟨i, Nat.lt_of_succ_lt hi⟩).2 < total_ms := by
  intro l
  induction l with
  | nil => intro start_ms _ i hi; simp at hi
  | cons c rest ih =>
      intro start_ms h i hi
      obtain ⟨hc1, hs, hc2, hrest⟩ := h
      rcases hrest with ⟨_, hnil⟩ | ⟨hlt, hspec⟩
      · subst hnil; simp at hi
      · cases i with
        | zero =>
            cases rest with
            | nil => simp at hi
            | cons q rest2 =>
                obtain ⟨hq1, _, _, _⟩ := hspec
                exact ⟨hq1, hlt⟩
        | succ j =>
            have hj : j + 1 < rest.length := by
              simpa using Nat.lt_of_succ_lt_succ hi
            exact ih _ hspec j hj

theorem chunkListSpec_last (chunk_ms overlap_ms total_ms : ℤ) (ho : 0 ≤ overlap_ms) :
    ∀ (l : List (ℤ × ℤ)) (start_ms : ℤ),
      chunkListSpec chunk_ms overlap_ms total_ms start_ms l →
      ∀ hne : l ≠ [], (l.getLast hne).2 = total_ms := by
  intro l
  induction l with
  | nil => intro start_ms _ hne; exact absurd rfl hne
  | cons c rest ih =>
      intro start_ms h hne
      obtain ⟨hc1, hs, hc2, hrest⟩ := h
      rcases hrest with ⟨hge, hnil⟩ | ⟨hlt, hspec⟩
      · subst hnil
        have hgl : (c :: []).getLast hne = c := rfl
        rw [hgl]
        omega
      · cases rest with
        | nil => simp only [chunkListSpec] at hspec; omega
        | cons q rest2 =>
            rw [List.getLast_cons (by simp)]
            exact ih _ hspec (by simp)

theorem chunkListSpec_cover (chunk_ms overlap_ms total_ms : ℤ) (ho : 0 ≤ overlap_ms) :
    ∀ (l : List (ℤ × ℤ)) (start_ms : ℤ),
      chunkListSpec chunk_ms overlap_ms total_ms start_ms l →
      ∀ x : ℤ, start_ms ≤ x → x < total_ms → ∃ p ∈ l, p.1 ≤ x ∧ x < p.2 := by
  intro l
  induction l with
  | nil =>
      intro start_ms h x hx1 hx2
      simp only [chunkListSpec] at h; omega
  | cons c rest ih =>
      intro start_ms h x hx1 hx2
      obtain ⟨hc1, hs, hc2, hrest⟩ := h
      by_cases hxc : x < c.2
      · exact ⟨c, List.mem_cons_self _ _, by omega, hxc⟩
      · rcases hrest with ⟨hge, _⟩ | ⟨hlt, hspec⟩
        · omega
        · obtain ⟨p, hp, hpx⟩ := ih _ hspec x (by omega) hx2
          exact ⟨p, List.mem_cons_of_mem _ hp, hpx⟩

theorem chunksLoop_succ (chunk_ms overlap_ms total_ms : ℤ) (fuel : ℕ) (s : ℤ) :
    chunksLoop chunk_ms overlap_ms total_ms (fuel + 1) s =
      if s < total_ms then
        if total_ms ≤ min (s + chunk_ms) total_ms then
          some [(s, min (s + chunk_ms) total_ms)]
        else
          (chunksLoop chunk_ms overlap_ms total_ms fuel
              (min (s + chunk_ms) total_ms - overlap_ms)).map
            (fun rest => (s, min (s + chunk_ms) total_ms) :: rest)
      else some [] := rfl

/-- Claim C4: for every positive duration and parameters with
`window_length > overlap_length ≥ 0`, the segmenter starts at offset 0, each
window spans `[start, min(start + window_length, D))`, the next window starts
at `end − overlap_length`, the windows cover `[0, D)` with no gaps, the last
window ends at `D`, and consecutive windows overlap by exactly
`overlap_length`; in particular a 12 min recording with 5 min windows and
30 s overlap yields windows starting at 0, 4.5 min and 9 min, 5 min long
except the last (3 min).  (Millisecond units, as in the source.) -/
theorem segmentation_coverage (chunk_ms overlap_ms total_ms : ℤ)
    (hD : 0 < total_ms) (ho : 0 ≤ overlap_ms) (hco : overlap_ms < chunk_ms) :
    (∃ l, make_chunks_ms chunk_ms overlap_ms total_ms = some l ∧
        SegmenterSpec chunk_ms overlap_ms total_ms l) ∧
    make_chunks_with_overlap 720000 5 30 =
      some [(0, 300000), (270000, 570000), (540000, 720000)] := by
  constructor
  · obtain ⟨l, hl⟩ := chunksLoop_total chunk_ms overlap_ms total_ms ho hco
      (total_ms.toNat + 1) 0 (by omega)
    have hspec := chunksLoop_sound chunk_ms overlap_ms total_ms _ _ _ hl
    have hne : l ≠ [] := chunkListSpec_ne_nil hspec hD
    refine ⟨l, hl, hne, ?_, ?_, ?_, ?_, ?_, ?_⟩
    · intro h0
      cases l with
      | nil => exact absurd rfl hne
      | cons c rest => exact hspec.1
    · intro p hp
      exact (chunkListSpec_mem_span chunk_ms overlap_ms total_ms l 0 hspec p hp).1
    · intro i hi
      exact (chunkListSpec_chain chunk_ms overlap_ms total_ms l 0 hspec i hi).1
    · exact chunkListSpec_last chunk_ms overlap_ms total_ms ho l 0 hspec
    · intro x hx1 hx2
      exact chunkListSpec_cover chunk_ms overlap_ms total_ms ho l 0 hspec x hx1 hx2
    · intro i hi
      obtain ⟨hchain, hilt⟩ := chunkListSpec_chain chunk_ms overlap_ms total_ms l 0 hspec i hi
      have hsp_i := (chunkListSpec_mem_span chunk_ms overlap_ms total_ms l 0 hspec
        (l.get ⟨i, Nat.lt_of_succ_lt hi⟩) (l.get_mem _ _)).1
      have hsp_i1 := (chunkListSpec_mem_span chunk_ms overlap_ms total_ms l 0 hspec
        (l.get ⟨i + 1, hi⟩) (l.get_mem _ _)).1
      refine ⟨by omega, ?_, ?_⟩
      · rcases min_cases ((l.get ⟨i, Nat.lt_of_succ_lt hi⟩).1 + chunk_ms) total_ms with
          h | h <;> omega
      · rcases min_cases ((l.get ⟨i + 1, hi⟩).1 + chunk_ms) total_ms with h | h <;> omega
  · decide

theorem segmentation_coverage_witness :
    (0 : ℤ) < 720000 ∧ (0 : ℤ) ≤ 30000 ∧ (30000 : ℤ) < 300000 ∧
    ((∃ l, make_chunks_ms 300000 30000 720000 = some l ∧
        SegmenterSpec 300000 30000 720000 l) ∧
     make_chunks_with_overlap 720000 5 30 =
       some [(0, 300000), (270000, 570000), (540000, 720000)]) :=
  ⟨by decide, by decide, by decide,
   segmentation_coverage 300000 30000 720000 (by decide) (by decide) (by decide)⟩

/-- Claim C5: a recording no longer than one window yields exactly one window
`[0, D)`; in particular a 4 min recording with 5 min windows yields the
single window `(0, 240000)` (milliseconds). -/
theorem segmentation_single_window (chunk_ms overlap_ms total_ms : ℤ)
    (hD : 0 < total_ms) (hle : total_ms ≤ chunk_ms) :
    make_chunks_ms chunk_ms overlap_ms total_ms = some [(0, total_ms)] ∧
    make_chunks_with_overlap 240000 5 30 = some [(0, 240000)] := by
  constructor
  · rw [make_chunks_ms, chunksLoop_succ, if_pos hD]
    have hmin : min ((0 : ℤ) + chunk_ms) total_ms = total_ms := by
      rw [zero_add]; exact min_eq_right hle
    rw [hmin, if_pos (le_refl total_ms)]
  · decide

theorem segmentation_single_window_witness :
    (0 : ℤ) < 240000 ∧ (240000 : ℤ) ≤ 300000 ∧
    (make_chunks_ms 300000 30000 240000 = some [(0, 240000)] ∧
     make_chunks_with_overlap 240000 5 30 = some [(0, 240000)]) :=
  ⟨by decide, by decide,
   segmentation_single_window 300000 30000 240000 (by decide) (by decide)⟩

/-- Claim C6 counterexample: with `chunk_minutes = 1` and
`overlap_seconds = 60` the constraint `window_length > overlap_length` is
violated (both are 60000 ms), yet for a 30 s recording the segmenter
produces a window instead of failing with `InvalidParameters` — there is no
parameter validation in the source. -/
theorem segmentation_no_validation_cex :
    ¬ ((1 : ℤ) * 60 * 1000 > 60 * 1000) ∧
    make_chunks_with_overlap 30000 1 60 = some [(0, 30000)] := by decide

/-- Claim C6 (amended): `make_chunks_with_overlap` performs no parameter
validation and never raises `InvalidParameters`.  With invalid parameters it
either still produces windows (when the recording fits in one window, see the
counterexample), or — when `overlap_length ≥ window_length > 0` and the
recording is longer than one window — its `while` loop never terminates: no
iteration bound makes it return. -/
theorem segmentation_no_validation (chunk_ms overlap_ms total_ms : ℤ)
    (hc : 0 < chunk_ms) (hco : chunk_ms ≤ overlap_ms) (hct : chunk_ms < total_ms) :
    (∀ fuel : ℕ, chunksLoop chunk_ms overlap_ms total_ms fuel 0 = none) ∧
    make_chunks_ms chunk_ms overlap_ms total_ms = none := by
  have key : ∀ (fuel : ℕ) (s : ℤ), s ≤ 0 →
      chunksLoop chunk_ms overlap_ms total_ms fuel s = none := by
    intro fuel
    induction fuel with
    | zero => intro s _; rfl
    | succ fuel ih =>
        intro s hs
        rw [chunksLoop_succ]
        have h1 : s < total_ms := by omega
        have hmin : min (s + chunk_ms) total_ms = s + chunk_ms := by
          rcases min_cases (s + chunk_ms) total_ms with h | h <;> omega
        rw [if_pos h1, hmin, if_neg (by omega), ih (s + chunk_ms - overlap_ms) (by omega)]
        rfl
  exact ⟨fun fuel => key fuel 0 le_rfl, key _ 0 le_rfl⟩

theorem segmentation_no_validation_witness :
    (0 : ℤ) < 60000 ∧ (60000 : ℤ) ≤ 60000 ∧ (60000 : ℤ) < 70000 ∧
    ((∀ fuel : ℕ, chunksLoop 60000 60000 70000 fuel 0 = none) ∧
     make_chunks_ms 60000 60000 70000 = none) :=
  ⟨by decide, by decide, by decide,
   segmentation_no_validation 60000 60000 70000 (by decide) (by decide) (by decide)⟩

theorem strJoin_append (a b : List String) :
    strJoin (a ++ b) = strJoin a ++ strJoin b := by
  induction a with
  | nil =>
      show strJoin b = "" ++ strJoin b
      cases hb : strJoin b
      rfl
  | cons s rest ih =>
      show s ++ strJoin (rest ++ b) = s ++ strJoin rest ++ strJoin b
      rw [ih, String.append_assoc]

theorem strJoin_length (l : List String) :
    (strJoin l).length = (l.map String.length).sum := by
  induction l with
  | nil => rfl
  | cons s rest ih =>
      show (s ++ strJoin rest).length = _
      rw [String.length_append, ih]
      rfl

theorem str_eq_empty_of_length (s : String) (h : s.length = 0) : s = "" := by
  cases s with
  | mk data =>
      have : data = [] := List.length_eq_zero.mp h
      rw [this]

theorem tacLoop_eq_raw (e : Engine) (o : ℚ) (N : ℕ) :
    ∀ (paths : List String) (idx : ℕ) (prev : String),
      tacLoop e o N idx prev paths =
        (rawChunksLoop e o N idx prev paths).map
          (fun R => (assembleText o R, assembleSegs o R, assembleLangs R)) := by
  intro paths
  induction paths with
  | nil => intro idx prev; rfl
  | cons p rest ih =>
      intro idx prev
      cases hcf : transcribe_chunk_file e p (optPrompt prev) with
      | none => simp only [tacLoop, rawChunksLoop, hcf]; rfl
      | some tcf =>
          obtain ⟨ct, segs, lang, prob⟩ := tcf
          simp only [tacLoop, rawChunksLoop, hcf]
          rw [ih]
          cases hr : rawChunksLoop e o N (idx + 1)
              (nextTailStr o N idx ct segs prev) rest with
          | none => rfl
          | some R => rfl

theorem rawChunksLoop_chain (e : Engine) (o : ℚ) (N : ℕ) :
    ∀ (paths : List String) (idx : ℕ) (prev : String) (R : List RawChunk),
      rawChunksLoop e o N idx prev paths = some R →
      promptChain o N idx prev R := by
  intro paths
  induction paths with
  | nil =>
      intro idx prev R h
      simp only [rawChunksLoop] at h
      cases h
      trivial
  | cons p rest ih =>
      intro idx prev R h
      simp only [rawChunksLoop] at h
      cases hcf : transcribe_chunk_file e p (optPrompt prev) with
      | none => rw [hcf] at h; simp at h
      | some tcf =>
          obtain ⟨ct, segs, lang, prob⟩ := tcf
          rw [hcf] at h
          simp only [Option.map_eq_some'] at h
          obtain ⟨R2, hr, hR⟩ := h
          cases hR
          rw [transcribe_chunk_file, Option.map_eq_some'] at hcf
          obtain ⟨out, hout, heq⟩ := hcf
          cases heq
          exact ⟨rfl, rfl, rfl, ih _ _ _ hr⟩

theorem promptChain_get_succ (o : ℚ) (N : ℕ) :
    ∀ (R : List RawChunk) (idx : ℕ) (prev : String),
      promptChain o N idx prev R →
      ∀ (k : ℕ) (hk : k + 1 < R.length),
        (R.get ⟨k + 1, hk⟩).prompt =
          nextTailR o N (R.get ⟨k, Nat.lt_of_succ_lt hk⟩) := by
  intro R
  induction R with
  | nil => intro idx prev _ k hk; simp at hk
  | cons r rest ih =>
      intro idx prev h k hk
      obtain ⟨_, _, _, hrest⟩ := h
      cases k with
      | zero =>
          cases rest with
          | nil => simp at hk
          | cons r2 rest2 => exact hrest.2.1
      | succ j =>
          have hj : j + 1 < rest.length := by simpa using Nat.lt_of_succ_lt_succ hk
          exact ih _ _ hrest j hj

theorem promptChain_get_fold (o : ℚ) (N : ℕ) :
    ∀ (R : List RawChunk) (idx : ℕ) (prev : String),
      promptChain o N idx prev R →
      ∀ (k : ℕ) (hk : k < R.length),
        (R.get ⟨k, hk⟩).prompt =
          List.foldl (fun acc r => (tailCandidate o N r).getD acc) prev (R.take k) := by
  intro R
  induction R with
  | nil => intro idx prev _ k hk; simp at hk
  | cons r rest ih =>
      intro idx prev h k hk
      obtain ⟨_, hprompt, _, hrest⟩ := h
      cases k with
      | zero => exact hprompt
      | succ j =>
          have hj : j < rest.length := Nat.lt_of_succ_lt_succ hk
          have hnext : nextTailR o N r = (tailCandidate o N r).getD r.prompt := by
            rw [nextTailR, nextTailStr, tailCandidate]
            simp only [mergedText, keptSegs]
            split_ifs <;> rfl
          calc ((r :: rest).get ⟨j + 1, hk⟩).prompt
              = (rest.get ⟨j, hj⟩).prompt := rfl
            _ = List.foldl (fun acc r2 => (tailCandidate o N r2).getD acc)
                  (nextTailR o N r) (rest.take j) := ih _ _ hrest j hj
            _ = _ := by rw [hnext, hprompt]; rfl

theorem promptChain_text (o : ℚ) (N : ℕ) :
    ∀ (R : List RawChunk) (idx : ℕ) (prev : String),
      promptChain o N idx prev R →
      ∀ r ∈ R, r.chunk_text = strJoin (r.segments.map Seg.text) := by
  intro R
  induction R with
  | nil => intro idx prev _ r hr; simp at hr
  | cons r0 rest ih =>
      intro idx prev h r hr
      obtain ⟨_, _, htext, hrest⟩ := h
      rcases List.mem_cons.mp hr with rfl | hr
      · exact htext
      · exact ih _ _ hrest r hr

theorem promptChain_index (o : ℚ) (N : ℕ) :
    ∀ (R : List RawChunk) (idx : ℕ) (prev : String),
      promptChain o N idx prev R →
      ∀ (k : ℕ) (hk : k < R.length), (R.get ⟨k, hk⟩).chunk_index = idx + k := by
  intro R
  induction R with
  | nil => intro idx prev _ k hk; simp at hk
  | cons r rest ih =>
      intro idx prev h k hk
      obtain ⟨hidx, _, _, hrest⟩ := h
      cases k with
      | zero => simpa using hidx
      | succ j =>
          have hj : j < rest.length := Nat.lt_of_succ_lt_succ hk
          have := ih _ _ hrest j hj
          calc ((r :: rest).get ⟨j + 1, hk⟩).chunk_index
              = (rest.get ⟨j, hj⟩).chunk_index := rfl
            _ = idx + 1 + j := this
            _ = idx + (j + 1) := by omega

theorem nextTailR_eq_getD (o : ℚ) (N : ℕ) (r : RawChunk) :
    nextTailR o N r = (tailCandidate o N r).getD r.prompt := by
  rw [nextTailR, nextTailStr, tailCandidate]
  simp only [mergedText, keptSegs]
  split_ifs <;> rfl

theorem keepB_eq_keepSpecB (o : ℚ) (idx : ℕ) (s : Seg) :
    keepB o idx s = keepSpecB o idx s := by
  rw [keepB, keepSpecB]
  cases idx with
  | zero => simp
  | succ j => by_cases h1 : s.start < o <;> simp [h1, le_of_not_lt]

theorem assembleSegs_text_join (o : ℚ) (R : List RawChunk) :
    strJoin ((assembleSegs o R).map GlobalSeg.text) = assembleText o R := by
  induction R with
  | nil => rfl
  | cons r rest ih =>
      show strJoin ((globalsOf o r ++ assembleSegs o rest).map GlobalSeg.text) =
        mergedText o r ++ assembleText o rest
      rw [List.map_append, strJoin_append, ih]
      congr 1
      rw [globalsOf, List.map_map]
      rfl

theorem processLoop_text (e : Engine) :
    ∀ (chunks : List ChunkRow) (prev : String) (rows : List TranscriptRow),
      processLoop e prev chunks = some rows →
      ∀ row ∈ rows, row.text = strJoin (row.segments.map Seg.text) := by
  intro chunks
  induction chunks with
  | nil =>
      intro prev rows h row hrow
      simp only [processLoop] at h
      cases h
      simp at hrow
  | cons c rest ih =>
      intro prev rows h row hrow
      simp only [processLoop] at h
      cases hcf : transcribe_chunk_file e c.blob_path (optPrompt prev) with
      | none => rw [hcf] at h; simp at h
      | some tcf =>
          obtain ⟨ct, segs, lang, prob⟩ := tcf
          rw [hcf] at h
          simp only [Option.map_eq_some'] at h
          obtain ⟨rs, hrs, hRows⟩ := h
          cases hRows
          rw [transcribe_chunk_file, Option.map_eq_some'] at hcf
          obtain ⟨out, hout, heq⟩ := hcf
          cases heq
          rcases List.mem_cons.mp hrow with rfl | hrow
          · rfl
          · exact ih _ _ hrs row hrow

/-- Claim C2: reconciliation keeps every window-0 segment and, for every
window `i > 0`, keeps a segment iff `local_start ≥ overlap_length`, emitting
kept segments in their original order; concretely, with a 30 s overlap, a
window-1 segment with `local_start = 10` is absent from the output segment
sequence and one with `local_start = 31` is present. -/
theorem reconcile_keep_filter (e : Engine) (o : ℚ) (N : ℕ) (paths : List String)
    (R : List RawChunk) (h : rawChunksLoop e o N 0 "" paths = some R) :
    ((transcribe_audio_chunks e paths o N).map (fun out => out.2.1) =
      some ((R.map (fun r =>
        (r.segments.filter (keepSpecB o r.chunk_index)).map (toGlobal r))).flatten)) ∧
    (transcribe_audio_chunks engSeg ["c0", "c1"] 30 300 =
      some ("AC",
        [GlobalSeg.mk 0 0 5 "A" "en" 1, GlobalSeg.mk 1 31 40 "C" "en" 1],
        [LangInfo.mk 0 "en" 1, LangInfo.mk 1 "en" 1])) ∧
    (∀ g ∈ [GlobalSeg.mk 0 0 5 "A" "en" 1, GlobalSeg.mk 1 31 40 "C" "en" 1],
      ¬ (g.chunk_index = 1 ∧ g.start = 10)) ∧
    (∃ g ∈ [GlobalSeg.mk 0 0 5 "A" "en" 1, GlobalSeg.mk 1 31 40 "C" "en" 1],
      g.chunk_index = 1 ∧ g.start = 31) := by
  refine ⟨?_, by decide, by decide, by decide⟩
  rw [transcribe_audio_chunks, tacLoop_eq_raw, h, Option.map_some', Option.map_some']
  show some (assembleSegs o R) = _
  congr 1
  rw [assembleSegs]
  congr 1
  apply List.map_congr_left
  intro r _
  rw [globalsOf, keptSegs]
  congr 1
  exact List.filter_congr (fun s _ => keepB_eq_keepSpecB o r.chunk_index s)

theorem reconcile_keep_filter_witness :
    rawChunksLoop engSeg 30 300 0 "" ["c0", "c1"] = some rawSeg ∧
    (((transcribe_audio_chunks engSeg ["c0", "c1"] 30 300).map (fun out => out.2.1) =
      some ((rawSeg.map (fun r =>
        (r.segments.filter (keepSpecB 30 r.chunk_index)).map (toGlobal r))).flatten)) ∧
    (transcribe_audio_chunks engSeg ["c0", "c1"] 30 300 =
      some ("AC",
        [GlobalSeg.mk 0 0 5 "A" "en" 1, GlobalSeg.mk 1 31 40 "C" "en" 1],
        [LangInfo.mk 0 "en" 1, LangInfo.mk 1 "en" 1])) ∧
    (∀ g ∈ [GlobalSeg.mk 0 0 5 "A" "en" 1, GlobalSeg.mk 1 31 40 "C" "en" 1],
      ¬ (g.chunk_index = 1 ∧ g.start = 10)) ∧
    (∃ g ∈ [GlobalSeg.mk 0 0 5 "A" "en" 1, GlobalSeg.mk 1 31 40 "C" "en" 1],
      g.chunk_index = 1 ∧ g.start = 31)) :=
  ⟨by decide, reconcile_keep_filter engSeg 30 300 ["c0", "c1"] rawSeg (by decide)⟩

/-- Claim C1 (amended): every element of the final global segment sequence is
a kept source segment recorded with its *bare local* timestamps
(`start = local_start`, `end = local_end`) together with its window index —
no window start offset is added (the merge loop never receives the windows'
start offsets). -/
theorem segments_local_timestamps (e : Engine) (o : ℚ) (N : ℕ)
    (paths : List String) (R : List RawChunk)
    (h : rawChunksLoop e o N 0 "" paths = some R) :
    ((transcribe_audio_chunks e paths o N).map (fun out => out.2.1) =
      some (assembleSegs o R)) ∧
    ∀ g ∈ assembleSegs o R, ∃ r ∈ R, ∃ s ∈ r.segments,
      keepB o r.chunk_index s = true ∧
      g.chunk_index = r.chunk_index ∧ g.start = s.start ∧ g.stop = s.stop ∧
      g.text = s.text ∧ g.language = r.language ∧
      g.language_probability = r.language_probability := by
  constructor
  · rw [transcribe_audio_chunks, tacLoop_eq_raw, h]
    rfl
  · intro g hg
    rw [assembleSegs, List.mem_flatten] at hg
    obtain ⟨gl, hgl, hgmem⟩ := hg
    rw [List.mem_map] at hgl
    obtain ⟨r, hr, rfl⟩ := hgl
    rw [globalsOf, List.mem_map] at hgmem
    obtain ⟨s, hs, rfl⟩ := hgmem
    rw [keptSegs, List.mem_filter] at hs
    exact ⟨r, hr, s, hs.1, hs.2, rfl, rfl, rfl, rfl, rfl, rfl⟩

/-- Claim C1 counterexample: for a 570 s recording the segmenter assigns
window 1 the start offset 270000 ms = 270 s, and the kept window-1 segment
with `local_start = 31` appears in the final global sequence with
`start = 31` — its bare local timestamp — and no segment carries
`start_offset[1] + local_start = 270 + 31 = 301` as the claim requires. -/
theorem segments_local_timestamps_cex :
    make_chunks_with_overlap 570000 5 30 = some [(0, 300000), (270000, 570000)] ∧
    transcribe_audio_chunks engSeg ["c0", "c1"] 30 300 =
      some ("AC",
        [GlobalSeg.mk 0 0 5 "A" "en" 1, GlobalSeg.mk 1 31 40 "C" "en" 1],
        [LangInfo.mk 0 "en" 1, LangInfo.mk 1 "en" 1]) ∧
    (∃ g ∈ [GlobalSeg.mk 0 0 5 "A" "en" 1, GlobalSeg.mk 1 31 40 "C" "en" 1],
      g.chunk_index = 1 ∧ g.start = 31) ∧
    (∀ g ∈ [GlobalSeg.mk 0 0 5 "A" "en" 1, GlobalSeg.mk 1 31 40 "C" "en" 1],
      ¬ g.start = 301) ∧
    (270 : ℚ) + 31 = 301 := by
  refine ⟨by decide, by decide, by decide, by decide, by norm_num⟩

theorem segments_local_timestamps_witness :
    rawChunksLoop engSeg 30 300 0 "" ["c0", "c1"] = some rawSeg ∧
    (((transcribe_audio_chunks engSeg ["c0", "c1"] 30 300).map (fun out => out.2.1) =
      some (assembleSegs 30 rawSeg)) ∧
    ∀ g ∈ assembleSegs 30 rawSeg, ∃ r ∈ rawSeg, ∃ s ∈ r.segments,
      keepB 30 r.chunk_index s = true ∧
      g.chunk_index = r.chunk_index ∧ g.start = s.start ∧ g.stop = s.stop ∧
      g.text = s.text ∧ g.language = r.language ∧
      g.language_probability = r.language_probability) :=
  ⟨by decide, segments_local_timestamps engSeg 30 300 ["c0", "c1"] rawSeg (by decide)⟩

/-- Claim C3 (amended): the merge step's own `full_text`
(`transcribe_audio_chunks`) is exactly the concatenation, in window-then-
local order, of the kept (overlap-trimmed) segment texts, and does not reuse
the pre-trim window text; but the final Transcript the orchestrator
(`process_upload`) returns concatenates the windows' raw pre-trim
`chunk_text`s directly — it never calls the merge step, so no overlap
trimming reaches the served transcript. -/
theorem full_text_joins (e : Engine) (o : ℚ) (N : ℕ) (paths : List String)
    (R : List RawChunk) (h : rawChunksLoop e o N 0 "" paths = some R)
    (e2 : Engine) (chunks : List ChunkRow) (db : DB) (rows : List TranscriptRow)
    (hne : chunks ≠ []) (hp : processLoop e2 "" chunks = some rows) :
    ((transcribe_audio_chunks e paths o N).map (fun out => out.1) =
      some (strJoin ((assembleSegs o R).map GlobalSeg.text))) ∧
    ((process_upload e2 chunks db).2.2.map Response.full_transcript =
      some (strJoin (rows.map TranscriptRow.text))) ∧
    (∀ row ∈ rows, row.text = strJoin (row.segments.map Seg.text)) := by
  refine ⟨?_, ?_, processLoop_text e2 chunks "" rows hp⟩
  · rw [transcribe_audio_chunks, tacLoop_eq_raw, h, Option.map_some',
      Option.map_some', assembleSegs_text_join]
  · rw [process_upload, if_neg hne, hp]
    rfl

/-- Claim C3 counterexample: window 1's raw text is `"BC"` and its only kept
segment is `"C"` (the `"B"` segment starts at 10 s, inside the 30 s overlap).
The final Transcript built by `process_upload` has `full_transcript = "ABC"`
— the join of the raw pre-trim window texts — whereas the concatenation of
the kept segment texts (which the claim requires, and which the unused merge
step produces) is `"AC"`. -/
theorem full_text_joins_cex :
    (process_upload engSeg chunkRowsSeg dbChunked).2.2.map Response.full_transcript =
      some "ABC" ∧
    (transcribe_audio_chunks engSeg ["c0", "c1"] 30 300).map (fun out => out.1) =
      some "AC" ∧
    ("ABC" : String) ≠ "AC" := by decide

theorem full_text_joins_witness :
    rawChunksLoop engSeg 30 300 0 "" ["c0", "c1"] = some rawSeg ∧
    chunkRowsSeg ≠ [] ∧
    processLoop engSeg "" chunkRowsSeg = some rowsSeg ∧
    (((transcribe_audio_chunks engSeg ["c0", "c1"] 30 300).map (fun out => out.1) =
      some (strJoin ((assembleSegs 30 rawSeg).map GlobalSeg.text))) ∧
    ((process_upload engSeg chunkRowsSeg dbChunked).2.2.map Response.full_transcript =
      some (strJoin (rowsSeg.map TranscriptRow.text))) ∧
    (∀ row ∈ rowsSeg, row.text = strJoin (row.segments.map Seg.text))) :=
  ⟨by decide, by decide, by decide,
   full_text_joins engSeg 30 300 ["c0", "c1"] rawSeg (by decide)
     engSeg chunkRowsSeg dbChunked rowsSeg (by decide) (by decide)⟩

theorem procRawLoop_chain (e : Engine) :
    ∀ (chunks : List ChunkRow) (prev : String) (P : List RawChunk),
      procRawLoop e prev chunks = some P → procPromptChain prev P := by
  intro chunks
  induction chunks with
  | nil =>
      intro prev P h
      simp only [procRawLoop] at h
      cases h
      trivial
  | cons c rest ih =>
      intro prev P h
      simp only [procRawLoop] at h
      cases hcf : transcribe_chunk_file e c.blob_path (optPrompt prev) with
      | none => rw [hcf] at h; simp at h
      | some tcf =>
          obtain ⟨ct, segs, lang, prob⟩ := tcf
          rw [hcf] at h
          simp only [Option.map_eq_some'] at h
          obtain ⟨P2, hr, hP⟩ := h
          cases hP
          rw [transcribe_chunk_file, Option.map_eq_some'] at hcf
          obtain ⟨out, hout, heq⟩ := hcf
          cases heq
          exact ⟨rfl, rfl, ih _ _ hr⟩

theorem procPromptChain_get_succ :
    ∀ (P : List RawChunk) (prev : String), procPromptChain prev P →
      ∀ (k : ℕ) (hk : k + 1 < P.length),
        (P.get ⟨k + 1, hk⟩).prompt =
          (if (P.get ⟨k, Nat.lt_of_succ_lt hk⟩).chunk_text ≠ "" then
            pyTail (P.get ⟨k, Nat.lt_of_succ_lt hk⟩).chunk_text 300
          else (P.get ⟨k, Nat.lt_of_succ_lt hk⟩).prompt) := by
  intro P
  induction P with
  | nil => intro prev _ k hk; simp at hk
  | cons r rest ih =>
      intro prev h k hk
      obtain ⟨_, _, hchain⟩ := h
      cases k with
      | zero =>
          cases rest with
          | nil => simp at hk
          | cons r2 rest2 => exact hchain.1
      | succ j =>
          have hj : j + 1 < rest.length := by simpa using Nat.lt_of_succ_lt_succ hk
          exact ih _ hchain j hj

theorem processLoop_eq_procRaw (e : Engine) :
    ∀ (chunks : List ChunkRow) (prev : String),
      processLoop e prev chunks =
        (procRawLoop e prev chunks).map
          (fun P => List.zipWith
            (fun (c : ChunkRow) (r : RawChunk) =>
              TranscriptRow.mk c.chunk_id r.chunk_index r.chunk_text r.language
                r.language_probability r.segments)
            chunks P) := by
  intro chunks
  induction chunks with
  | nil => intro prev; rfl
  | cons c rest ih =>
      intro prev
      cases hcf : transcribe_chunk_file e c.blob_path (optPrompt prev) with
      | none => simp only [processLoop, procRawLoop, hcf]; rfl
      | some tcf =>
          obtain ⟨ct, segs, lang, prob⟩ := tcf
          simp only [processLoop, procRawLoop, hcf]
          rw [ih]
          cases hr : procRawLoop e (if ct ≠ "" then pyTail ct 300 else prev) rest with
          | none => rfl
          | some P => rfl

/-- Claim C8 (amended): in `transcribe_audio_chunks`, the hint recorded for
window `i + 1` is the last `N` characters of the merged (overlap-trimmed)
text of window `i` when that text is non-empty, else of the raw `full_text`
of window `i`, and a zero-segment window leaves the hint unchanged; but in
the per-window loop of the orchestrator itself (`process_upload`,
src/processors/whisper/main.py lines 213-215) no merged text is computed at
all: there the hint for window `i + 1` is always the last 300 characters of
the raw chunk text of window `i` when that text is non-empty, and unchanged
otherwise — the merged tail is never preferred. -/
theorem context_carryover_policies (e : Engine) (o : ℚ) (N : ℕ)
    (paths : List String) (R : List RawChunk)
    (h : rawChunksLoop e o N 0 "" paths = some R)
    (e2 : Engine) (chunks : List ChunkRow) (P : List RawChunk)
    (hp : procRawLoop e2 "" chunks = some P) :
    (∀ (k : ℕ) (hk : k + 1 < R.length),
      ((R.get ⟨k + 1, hk⟩).prompt =
        (if mergedText o (R.get ⟨k, Nat.lt_of_succ_lt hk⟩) ≠ "" then
          pyTail (mergedText o (R.get ⟨k, Nat.lt_of_succ_lt hk⟩)) N
        else if (R.get ⟨k, Nat.lt_of_succ_lt hk⟩).chunk_text ≠ "" then
          pyTail (R.get ⟨k, Nat.lt_of_succ_lt hk⟩).chunk_text N
        else (R.get ⟨k, Nat.lt_of_succ_lt hk⟩).prompt)) ∧
      ((R.get ⟨k, Nat.lt_of_succ_lt hk⟩).segments = [] →
        (R.get ⟨k + 1, hk⟩).prompt = (R.get ⟨k, Nat.lt_of_succ_lt hk⟩).prompt)) ∧
    (∀ (k : ℕ) (hk : k + 1 < P.length),
      (P.get ⟨k + 1, hk⟩).prompt =
        (if (P.get ⟨k, Nat.lt_of_succ_lt hk⟩).chunk_text ≠ "" then
          pyTail (P.get ⟨k, Nat.lt_of_succ_lt hk⟩).chunk_text 300
        else (P.get ⟨k, Nat.lt_of_succ_lt hk⟩).prompt)) ∧
    (processLoop e2 "" chunks =
      (procRawLoop e2 "" chunks).map
        (fun P2 => List.zipWith
          (fun (c : ChunkRow) (r : RawChunk) =>
            TranscriptRow.mk c.chunk_id r.chunk_index r.chunk_text r.language
              r.language_probability r.segments)
          chunks P2)) := by
  refine ⟨?_,
    fun k hk => procPromptChain_get_succ P ""
      (procRawLoop_chain e2 chunks "" P hp) k hk,
    processLoop_eq_procRaw e2 chunks ""⟩
  have chain := rawChunksLoop_chain e o N paths 0 "" R h
  intro k hk
  have hsucc := promptChain_get_succ o N R 0 "" chain k hk
  constructor
  · rw [hsucc, nextTailR, nextTailStr]
    simp only [mergedText, keptSegs]
  · intro hseg
    have htext := promptChain_text o N R 0 "" chain
      (R.get ⟨k, Nat.lt_of_succ_lt hk⟩) (R.get_mem _ _)
    have hct : (R.get ⟨k, Nat.lt_of_succ_lt hk⟩).chunk_text = "" := by
      rw [htext, hseg]; rfl
    have hmt : mergedText o (R.get ⟨k, Nat.lt_of_succ_lt hk⟩) = "" := by
      rw [mergedText, keptSegs, hseg]; rfl
    rw [hsucc, nextTailR_eq_getD, tailCandidate, hmt, hct]
    simp

/-- Claim C8 counterexample: running the orchestrator loop (`process_upload`)
on three windows where window 1 has raw text `"BC"` and merged
(overlap-trimmed) text `"C"` (non-empty), the hint recorded for window 2 is
`"BC"` — the raw-text tail — not the merged tail `"C"` the claim requires;
the loop of main.py lines 213-215 never prefers the merged text. -/
theorem context_carryover_cex :
    procRawLoop engSeg "" chunkRowsSeg3 = some procSeg3 ∧
    processLoop engSeg "" chunkRowsSeg3 =
      some [TranscriptRow.mk 1 0 "A" "en" 1 [Seg.mk 0 5 "A"],
            TranscriptRow.mk 2 1 "BC" "en" 1 [Seg.mk 10 20 "B", Seg.mk 31 40 "C"],
            TranscriptRow.mk 3 2 "BC" "en" 1 [Seg.mk 10 20 "B", Seg.mk 31 40 "C"]] ∧
    mergedText 30
      (RawChunk.mk 1 "A" "BC" [Seg.mk 10 20 "B", Seg.mk 31 40 "C"] "en" 1) = "C" ∧
    ¬ mergedText 30
      (RawChunk.mk 1 "A" "BC" [Seg.mk 10 20 "B", Seg.mk 31 40 "C"] "en" 1) = "" ∧
    pyTail "C" 300 = "C" ∧
    (RawChunk.mk 2 "BC" "BC" [Seg.mk 10 20 "B", Seg.mk 31 40 "C"] "en" 1).prompt =
      "BC" ∧
    ("BC" : String) ≠ "C" := by decide

theorem context_carryover_policies_witness :
    rawChunksLoop engSilent 30 300 0 "" ["c0", "s1", "c1"] = some rawSilent ∧
    procRawLoop engSeg "" chunkRowsSeg3 = some procSeg3 ∧
    ((∀ (k : ℕ) (hk : k + 1 < rawSilent.length),
      ((rawSilent.get ⟨k + 1, hk⟩).prompt =
        (if mergedText 30 (rawSilent.get ⟨k, Nat.lt_of_succ_lt hk⟩) ≠ "" then
          pyTail (mergedText 30 (rawSilent.get ⟨k, Nat.lt_of_succ_lt hk⟩)) 300
        else if (rawSilent.get ⟨k, Nat.lt_of_succ_lt hk⟩).chunk_text ≠ "" then
          pyTail (rawSilent.get ⟨k, Nat.lt_of_succ_lt hk⟩).chunk_text 300
        else (rawSilent.get ⟨k, Nat.lt_of_succ_lt hk⟩).prompt)) ∧
      ((rawSilent.get ⟨k, Nat.lt_of_succ_lt hk⟩).segments = [] →
        (rawSilent.get ⟨k + 1, hk⟩).prompt =
          (rawSilent.get ⟨k, Nat.lt_of_succ_lt hk⟩).prompt)) ∧
    (∀ (k : ℕ) (hk : k + 1 < procSeg3.length),
      (procSeg3.get ⟨k + 1, hk⟩).prompt =
        (if (procSeg3.get ⟨k, Nat.lt_of_succ_lt hk⟩).chunk_text ≠ "" then
          pyTail (procSeg3.get ⟨k, Nat.lt_of_succ_lt hk⟩).chunk_text 300
        else (procSeg3.get ⟨k, Nat.lt_of_succ_lt hk⟩).prompt)) ∧
    (processLoop engSeg "" chunkRowsSeg3 =
      (procRawLoop engSeg "" chunkRowsSeg3).map
        (fun P2 => List.zipWith
          (fun (c : ChunkRow) (r : RawChunk) =>
            TranscriptRow.mk c.chunk_id r.chunk_index r.chunk_text r.language
              r.language_probability r.segments)
          chunkRowsSeg3 P2))) :=
  ⟨by decide, by decide,
   context_carryover_policies engSilent 30 300 ["c0", "s1", "c1"] rawSilent
     (by decide) engSeg chunkRowsSeg3 procSeg3 (by decide)⟩

/-- Claim C10 (implicit invariant): across the per-window loop, the hint in
force before window `k` is always the tail contributed by the most recent
earlier window that produced any text — a fold of the windows' tail
candidates starting from the empty string — and a window offering no tail
(empty merged and raw text) leaves the hint unchanged; it is never reset to
empty. -/
theorem context_hint_invariant (e : Engine) (o : ℚ) (N : ℕ) (paths : List String)
    (R : List RawChunk) (h : rawChunksLoop e o N 0 "" paths = some R) :
    (∀ (k : ℕ) (hk : k < R.length),
      (R.get ⟨k, hk⟩).prompt =
        List.foldl (fun acc r => (tailCandidate o N r).getD acc) "" (R.take k)) ∧
    (∀ (k : ℕ) (hk : k + 1 < R.length),
      tailCandidate o N (R.get ⟨k, Nat.lt_of_succ_lt hk⟩) = none →
      (R.get ⟨k + 1, hk⟩).prompt = (R.get ⟨k, Nat.lt_of_succ_lt hk⟩).prompt) := by
  have chain := rawChunksLoop_chain e o N paths 0 "" R h
  refine ⟨fun k hk => promptChain_get_fold o N R 0 "" chain k hk, ?_⟩
  intro k hk hc
  rw [promptChain_get_succ o N R 0 "" chain k hk, nextTailR_eq_getD, hc]
  rfl

theorem context_hint_invariant_witness :
    rawChunksLoop engSilent 30 300 0 "" ["c0", "s1", "c1"] = some rawSilent ∧
    ((∀ (k : ℕ) (hk : k < rawSilent.length),
      (rawSilent.get ⟨k, hk⟩).prompt =
        List.foldl (fun acc r => (tailCandidate 30 300 r).getD acc) ""
          (rawSilent.take k)) ∧
    (∀ (k : ℕ) (hk : k + 1 < rawSilent.length),
      tailCandidate 30 300 (rawSilent.get ⟨k, Nat.lt_of_succ_lt hk⟩) = none →
      (rawSilent.get ⟨k + 1, hk⟩).prompt =
        (rawSilent.get ⟨k, Nat.lt_of_succ_lt hk⟩).prompt)) :=
  ⟨by decide,
   context_hint_invariant engSilent 30 300 ["c0", "s1", "c1"] rawSilent (by decide)⟩

theorem insertRow_perm (r : TranscriptRow) :
    ∀ l : List TranscriptRow, (insertRow r l).Perm (r :: l) := by
  intro l
  induction l with
  | nil => exact List.Perm.refl _
  | cons x xs ih =>
      rw [insertRow]
      split_ifs with hcmp
      · exact List.Perm.refl _
      · exact (List.Perm.cons x ih).trans (List.Perm.swap r x xs)

theorem sortRows_perm : ∀ l : List TranscriptRow, (sortRows l).Perm l := by
  intro l
  induction l with
  | nil => exact List.Perm.refl _
  | cons x xs ih =>
      exact (insertRow_perm x (sortRows xs)).trans (List.Perm.cons x ih)

theorem get_transcript_completed (rs : List TranscriptRow) :
    get_transcript (DB.mk "completed" rs) =
      some (TranscriptOut.mk
        (strJoin ((sortRows rs).map TranscriptRow.text))
        (((sortRows rs).map TranscriptRow.segments).flatten)
        (((sortRows rs).map TranscriptRow.language).dedup)
        (sortRows rs).length) := by
  rw [get_transcript, if_pos rfl]

/-- Claim C7 (amended): with a deterministic engine, invoking `process` twice
sequentially on the same chunked recording returns byte-identical response
payloads; but each invocation *appends* the transcript rows to the
`transcripts` table (it never replaces them), so after the second invocation
the store holds every row twice and `get_transcript` — which concatenates all
stored rows — returns a transcript of twice the length, different from the
single-invocation transcript whenever it is non-empty. -/
theorem reprocess_appends (e : Engine) (chunks : List ChunkRow) (db : DB)
    (rows : List TranscriptRow) (hne : chunks ≠ [])
    (hrun : processLoop e "" chunks = some rows) (hdb : db.transcripts = []) :
    ((process_upload e chunks (process_upload e chunks db).1).2.2 =
      (process_upload e chunks db).2.2) ∧
    ((process_upload e chunks db).1.transcripts = rows) ∧
    ((process_upload e chunks (process_upload e chunks db).1).1.transcripts =
      rows ++ rows) ∧
    (∃ t1 t2,
      get_transcript (process_upload e chunks db).1 = some t1 ∧
      get_transcript (process_upload e chunks (process_upload e chunks db).1).1 =
        some t2 ∧
      t2.full_transcript.length = 2 * t1.full_transcript.length ∧
      (t1.full_transcript ≠ "" → t2 ≠ t1)) := by
  have hstep : ∀ d : DB, process_upload e chunks d =
      (DB.mk "completed" (d.transcripts ++ rows), ["completed"],
       some (Response.mk "completed" rows.length
         (strJoin (rows.map TranscriptRow.text))
         ((rows.map TranscriptRow.language).dedup))) := by
    intro d
    rw [process_upload, if_neg hne, hrun]
  have hdb1 : (process_upload e chunks db).1 = DB.mk "completed" rows := by
    rw [hstep db, hdb]
    rfl
  have hdb2 : (process_upload e chunks (process_upload e chunks db).1).1 =
      DB.mk "completed" (rows ++ rows) := by
    rw [hstep ((process_upload e chunks db).1), hdb1]
  refine ⟨?_, ?_, ?_, ?_⟩
  · rw [hstep ((process_upload e chunks db).1), hstep db]
  · rw [hdb1]
  · rw [hdb2]
  · have hlen : (strJoin ((sortRows (rows ++ rows)).map TranscriptRow.text)).length =
        2 * (strJoin ((sortRows rows).map TranscriptRow.text)).length := by
      rw [strJoin_length, strJoin_length, List.map_map, List.map_map]
      have h1 := List.Perm.sum_eq
        ((sortRows_perm (rows ++ rows)).map (String.length ∘ TranscriptRow.text))
      have h2 := List.Perm.sum_eq
        ((sortRows_perm rows).map (String.length ∘ TranscriptRow.text))
      rw [h1, h2, List.map_append, List.sum_append]
      omega
    refine ⟨_, _, by rw [hdb1, get_transcript_completed],
      by rw [hdb2, get_transcript_completed], hlen, ?_⟩
    intro hne1 heq
    have hfl := congrArg (fun t : TranscriptOut => t.full_transcript.length) heq
    simp only at hfl
    have hzero : (strJoin ((sortRows rows).map TranscriptRow.text)).length = 0 := by
      omega
    exact hne1 (str_eq_empty_of_length _ hzero)

/-- Claim C7 counterexample: processing the same single-chunk upload twice
(deterministic engine, no concurrency) leaves two copies of the row in the
store, so `get_transcript` afterwards returns `"AA"` with two segments —
not the transcript `"A"` it returns after a single `process` invocation. -/
theorem reprocess_appends_cex :
    get_transcript (process_upload engConst chunkRowsOne dbChunked).1 =
      some (TranscriptOut.mk "A" [Seg.mk 0 1 "A"] ["en"] 1) ∧
    get_transcript (process_upload engConst chunkRowsOne
        (process_upload engConst chunkRowsOne dbChunked).1).1 =
      some (TranscriptOut.mk "AA" [Seg.mk 0 1 "A", Seg.mk 0 1 "A"] ["en"] 2) ∧
    some (TranscriptOut.mk "AA" [Seg.mk 0 1 "A", Seg.mk 0 1 "A"] ["en"] 2) ≠
      some (TranscriptOut.mk "A" [Seg.mk 0 1 "A"] ["en"] 1) := by decide

theorem reprocess_appends_witness :
    chunkRowsOne ≠ [] ∧
    processLoop engConst "" chunkRowsOne = some rowsOne ∧
    dbChunked.transcripts = [] ∧
    (((process_upload engConst chunkRowsOne
        (process_upload engConst chunkRowsOne dbChunked).1).2.2 =
      (process_upload engConst chunkRowsOne dbChunked).2.2) ∧
    ((process_upload engConst chunkRowsOne dbChunked).1.transcripts = rowsOne) ∧
    ((process_upload engConst chunkRowsOne
        (process_upload engConst chunkRowsOne dbChunked).1).1.transcripts =
      rowsOne ++ rowsOne) ∧
    (∃ t1 t2,
      get_transcript (process_upload engConst chunkRowsOne dbChunked).1 = some t1 ∧
      get_transcript (process_upload engConst chunkRowsOne
          (process_upload engConst chunkRowsOne dbChunked).1).1 = some t2 ∧
      t2.full_transcript.length = 2 * t1.full_transcript.length ∧
      (t1.full_transcript ≠ "" → t2 ≠ t1))) :=
  ⟨by decide, by decide, by decide,
   reprocess_appends engConst chunkRowsOne dbChunked rowsOne
     (by decide) (by decide) (by decide)⟩

/-- Claim C9 (amended): the statuses the code actually writes are
`chunked → {completed | failed}`: ingestion stores the recording as
`chunked`; `process_upload` writes exactly one status per run — `completed`
when every chunk transcribes, written in the same transaction that inserts
the transcript rows, and `failed` on any failure (no chunks found, or an
engine exception, which leaves the stored rows unchanged).  No `processing`
status — and no `pending` status — is ever written. -/
theorem status_machine (e : Engine) (chunks : List ChunkRow) (db : DB) :
    ("processing" ∉ (process_upload e chunks db).2.1 ∧
     "pending" ∉ (process_upload e chunks db).2.1) ∧
    ((process_upload e chunks db).2.1 = ["completed"] ∨
     (process_upload e chunks db).2.1 = ["failed"]) ∧
    (∀ rows : List TranscriptRow, chunks ≠ [] →
      processLoop e "" chunks = some rows →
      (process_upload e chunks db).1 = DB.mk "completed" (db.transcripts ++ rows) ∧
      (process_upload e chunks db).2.1 = ["completed"]) ∧
    ((chunks = [] ∨ processLoop e "" chunks = none) →
      (process_upload e chunks db).1 = DB.mk "failed" db.transcripts ∧
      (process_upload e chunks db).2.1 = ["failed"]) ∧
    (∀ (t : ℤ) (cs : List (ℤ × ℤ)) (st : String),
      upload_audio t = some (cs, st) → st = "chunked") := by
  have hupload : ∀ (t : ℤ) (cs : List (ℤ × ℤ)) (st : String),
      upload_audio t = some (cs, st) → st = "chunked" := by
    intro t cs st h
    rw [upload_audio, Option.map_eq_some'] at h
    obtain ⟨l, _, heq⟩ := h
    cases heq
    rfl
  have hmemf : ("processing" ∉ ["failed"] ∧ "pending" ∉ ["failed"]) ∧
      ("processing" ∉ ["completed"] ∧ "pending" ∉ ["completed"]) := by decide
  by_cases hne : chunks = []
  · have hpu : process_upload e chunks db =
        (DB.mk "failed" db.transcripts, ["failed"], none) := by
      rw [process_upload, if_pos hne]
    rw [hpu]
    exact ⟨hmemf.1, Or.inr rfl,
      fun rows hne2 _ => absurd hne hne2,
      fun _ => ⟨rfl, rfl⟩, hupload⟩
  · cases hrun : processLoop e "" chunks with
    | none =>
        have hpu : process_upload e chunks db =
            (DB.mk "failed" db.transcripts, ["failed"], none) := by
          rw [process_upload, if_neg hne, hrun]
        rw [hpu]
        refine ⟨hmemf.1, Or.inr rfl, ?_, fun _ => ⟨rfl, rfl⟩, hupload⟩
        intro rows _ hsome
        exact Option.noConfusion hsome
    | some rows0 =>
        have hpu : process_upload e chunks db =
            (DB.mk "completed" (db.transcripts ++ rows0), ["completed"],
             some (Response.mk "completed" rows0.length
               (strJoin (rows0.map TranscriptRow.text))
               ((rows0.map TranscriptRow.language).dedup))) := by
          rw [process_upload, if_neg hne, hrun]
        rw [hpu]
        refine ⟨hmemf.2, Or.inl rfl, ?_, ?_⟩
        · intro rows _ hsome
          cases hsome
          exact ⟨rfl, rfl⟩
        · refine ⟨?_, hupload⟩
          intro hfail
          rcases hfail with hfail | hfail
          · exact absurd hfail hne
          · exact Option.noConfusion hfail

/-- Claim C9 counterexample: a full successful run writes the status sequence
`["chunked", "completed"]` — `completed` is reached directly from `chunked`,
and no `processing` status is ever set, contradicting "the status is set to
processing when the per-window transcription loop begins" and "completed and
failed are reached only from processing". -/
theorem status_machine_cex :
    "chunked" :: (process_upload engConst chunkRowsOne dbChunked).2.1 =
      ["chunked", "completed"] ∧
    "completed" ∈ ("chunked" :: (process_upload engConst chunkRowsOne dbChunked).2.1) ∧
    "processing" ∉ ("chunked" :: (process_upload engConst chunkRowsOne dbChunked).2.1) ∧
    (upload_audio 240000).map (fun r => r.2) = some "chunked" := by decide

theorem status_machine_witness :
    ("processing" ∉ (process_upload engConst chunkRowsOne dbChunked).2.1 ∧
     "pending" ∉ (process_upload engConst chunkRowsOne dbChunked).2.1) ∧
    ((process_upload engConst chunkRowsOne dbChunked).2.1 = ["completed"] ∨
     (process_upload engConst chunkRowsOne dbChunked).2.1 = ["failed"]) ∧
    (∀ rows : List TranscriptRow, chunkRowsOne ≠ [] →
      processLoop engConst "" chunkRowsOne = some rows →
      (process_upload engConst chunkRowsOne dbChunked).1 =
        DB.mk "completed" (dbChunked.transcripts ++ rows) ∧
      (process_upload engConst chunkRowsOne dbChunked).2.1 = ["completed"]) ∧
    ((chunkRowsOne = [] ∨ processLoop engConst "" chunkRowsOne = none) →
      (process_upload engConst chunkRowsOne dbChunked).1 =
        DB.mk "failed" dbChunked.transcripts ∧
      (process_upload engConst chunkRowsOne dbChunked).2.1 = ["failed"]) ∧
    (∀ (t : ℤ) (cs : List (ℤ × ℤ)) (st : String),
      upload_audio t = some (cs, st) → st = "chunked") :=
  status_machine engConst chunkRowsOne dbChunked
